import Mathlib

/-!
Shallow embedding of `src/find-qtifw.ts` (setup-qitfw): version discovery and
constraint resolution against a listing page, platform/arch-aware installer
link selection, and mirror discovery with blacklist / already-tried filtering.

Network fetches are abstracted away: each function takes the already-fetched,
already-parsed document (the list of link texts, link targets, or `url`
elements) as an explicit argument.  JavaScript string/number primitives used
by the source are modelled explicitly below.
-/

namespace QtIFW

/-! ## JavaScript primitives -/

/-- Models `String.prototype.toLowerCase` (the strings involved are ASCII
host names and URLs, for which per-character lowering agrees). -/
def jsToLower (s : String) : String := ⟨s.data.map Char.toLower⟩

/-- Models `s.includes(search)`: `search` occurs contiguously in `s`.
JavaScript `includes` is case sensitive. -/
def jsIncludes (s search : String) : Bool := decide (search.data <:+: s.data)

/-- Models `s.endsWith(search)`. -/
def jsEndsWith (s search : String) : Bool := decide (search.data <:+ s.data)

/-- Models JavaScript loose equality of a string with `null`: a string value
(of any content, including the empty string) is never loosely equal to
`null` — only `null` and `undefined` are. -/
def jsStrEqNull (_s : String) : Bool := false

/-- Digit list to number, most significant digit first. -/
def digitsToNat (ds : List Char) : Nat :=
  ds.foldl (fun n c => n * 10 + (c.toNat - 48)) 0

/-- Models JavaScript numeric coercion (unary `+`) of an attribute string,
restricted to an optional sign followed by decimal digits — the shape
priorities take in metalink documents.  `none` stands for `NaN`; forms not
covered here (fractions, exponents, hex, surrounding whitespace) are outside
the model and also mapped to `none`. -/
def jsToNumber (s : String) : Option Int :=
  match s.data with
  | [] => some 0
  | '-' :: ds =>
    if ds ≠ [] ∧ ds.all Char.isDigit then some (-(digitsToNat ds : Int)) else none
  | '+' :: ds =>
    if ds ≠ [] ∧ ds.all Char.isDigit then some ((digitsToNat ds : Int)) else none
  | ds =>
    if ds.all Char.isDigit then some ((digitsToNat ds : Int)) else none

/-! ## Semantic versions

`semver.coerce` discards pre-release/build metadata, so every version produced
by the listing parser is a plain `major.minor.patch` triple and the semver
ordering on them is lexicographic. -/

/-- A coerced semantic version: `major.minor.patch`. -/
structure SemVer where
  major : Nat
  minor : Nat
  patch : Nat
deriving DecidableEq, Repr

/-- Strict semver ordering on coerced versions (no pre-release components):
lexicographic on (major, minor, patch), as the semver comparison rules
specify. -/
def SemVer.ltb (a b : SemVer) : Bool :=
  decide (a.major < b.major) ||
    (decide (a.major = b.major) &&
      (decide (a.minor < b.minor) ||
        (decide (a.minor = b.minor) && decide (a.patch < b.patch))))

/-- Models `semver.gte a b`: `compare a b ≥ 0`, i.e. not `a < b`. -/
def SemVer.gteb (a b : SemVer) : Bool := !a.ltb b

/-- Models `SemVer#version`: the canonical string form `major.minor.patch`. -/
def SemVer.version (v : SemVer) : String :=
  toString v.major ++ "." ++ toString v.minor ++ "." ++ toString v.patch

/-- Leading run of decimal digits of a character list, and the remainder. -/
def takeDigitRun : List Char → List Char × List Char
  | [] => ([], [])
  | c :: cs =>
    if c.isDigit then
      ((c :: (takeDigitRun cs).1), (takeDigitRun cs).2)
    else ([], c :: cs)

/-- Minor/patch tail of `semver.coerce` after a major (and minor) component
has been read: a dot followed by a digit run of 1 to 16 digits extends the
version, anything else ends it. -/
def coercePatch (maj mnr : Nat) : List Char → SemVer
  | '.' :: rest =>
    if (takeDigitRun rest).1.length = 0 ∨ 16 < (takeDigitRun rest).1.length then
      ⟨maj, mnr, 0⟩
    else ⟨maj, mnr, digitsToNat (takeDigitRun rest).1⟩
  | _ => ⟨maj, mnr, 0⟩

/-- Minor component step of `semver.coerce`, see `coercePatch`. -/
def coerceTail (maj : Nat) : List Char → SemVer
  | '.' :: rest =>
    if (takeDigitRun rest).1.length = 0 ∨ 16 < (takeDigitRun rest).1.length then
      ⟨maj, 0, 0⟩
    else coercePatch maj (digitsToNat (takeDigitRun rest).1) (takeDigitRun rest).2
  | _ => ⟨maj, 0, 0⟩

/-- Scanner of `semver.coerce`: find the leftmost digit run not preceded by a
digit and of at most 16 digits; it becomes the major component and
`coerceTail` reads the optional `.minor.patch` continuation.  The boolean
argument records whether the previous character was a digit (the
`(^|[^\x64igit])` boundary of the library's regular expression, with maximal
digit runs).  Anything after the matched version (e.g. a pre-release suffix)
is discarded, as `semver.coerce` does. -/
def coerceScan : Bool → List Char → Option SemVer
  | _, [] => none
  | prevDigit, c :: cs =>
    if c.isDigit && !prevDigit then
      if (takeDigitRun (c :: cs)).1.length ≤ 16 then
        some (coerceTail (digitsToNat (takeDigitRun (c :: cs)).1) (takeDigitRun (c :: cs)).2)
      else coerceScan true cs
    else coerceScan c.isDigit cs

/-- Models `semver.coerce`: best-effort extraction of a version triple from a
free-text label; `none` when the label contains no version-like part. -/
def coerce (s : String) : Option SemVer := coerceScan false s.data

/-- One step of `semver.maxSatisfying`'s scan over the version list: keep the
running maximum, replacing it when a satisfying version strictly greater than
it appears (the library replaces exactly when `maxSV.compare(v) === -1`). -/
def maxSatStep (sat : SemVer → Bool) (acc : Option SemVer) (v : SemVer) : Option SemVer :=
  if sat v then
    match acc with
    | none => some v
    | some m => if m.ltb v then some v else some m
  else acc

/-- Models `semver.maxSatisfying(versions, range)`.  Range satisfaction is
delegated by the source to the semver library; it enters the model as the
abstract decidable predicate `sat`. -/
def maxSatisfying (versions : List SemVer) (sat : SemVer → Bool) : Option SemVer :=
  versions.foldl (maxSatStep sat) none

/-! ## Errors

The five failure kinds of the pipeline.  The source throws strings or `Error`
values; the payloads interpolated into those messages become the constructor
arguments here. -/

inductive QtError where
  | fetchError (url : String)
  | unsupportedPlatform (value : String)
  | noMatchingVersion (discoveredVersions : List SemVer)
  | artifactNotFound (version : String) (extension : String)
  | noMirrorsAvailable (metaUrl : String)
deriving DecidableEq, Repr

/-! ## Version Lister and Resolver (`requestQtIndex`, `parseQtIndex`) -/

/-- `parseQtIndex`: coerce each table-row link text of the listing document
into a version, silently discarding labels that do not coerce. -/
def parseQtIndex (linkTexts : List String) : List SemVer :=
  linkTexts.filterMap coerce

/-- `requestQtIndex`, with the fetched listing document abstracted to its
table-row link texts and the constraint to the satisfaction predicate `sat`
(the source passes the constraint string to `semver.maxSatisfying`).  On
success, the canonical string (`maxVersion.version`) is returned; when
`maxSatisfying` yields `null`, the function throws, carrying the discovered
version list. -/
def requestQtIndex (linkTexts : List String) (sat : SemVer → Bool) :
    Except QtError String :=
  let versions := parseQtIndex linkTexts
  match maxSatisfying versions sat with
  | none => Except.error (QtError.noMatchingVersion versions)
  | some maxVersion => Except.ok maxVersion.version

/-! ## Platform to extension mapping (`getInstallerExtension`) -/

/-- Modelled from the spec: the platform token constants live in `src/utils`,
which is not part of the sources at hand; the spec's platform table fixes the
closed token set {windows, darwin/macOS, linux}. -/
def PLATFORM_WINDOWS : String := "windows"

/-- Modelled from the spec: see `PLATFORM_WINDOWS`. -/
def PLATFORM_DARWIN : String := "darwin"

/-- Modelled from the spec: see `PLATFORM_WINDOWS`. -/
def PLATFORM_LINUX : String := "linux"

/-- `getInstallerExtension`: windows ⟼ exe, darwin ⟼ dmg, linux ⟼ run,
anything else throws carrying the offending value. -/
def getInstallerExtension (platform : String) : Except QtError String :=
  if platform = PLATFORM_WINDOWS then Except.ok "exe"
  else if platform = PLATFORM_DARWIN then Except.ok "dmg"
  else if platform = PLATFORM_LINUX then Except.ok "run"
  else Except.error (QtError.unsupportedPlatform platform)

/-! ## Artifact Locator (`getInstallerLinkForSpecificVersion`) -/

/-- `ROOT_QTIFW_URL` from the source. -/
def ROOT_QTIFW_URL : String :=
  "https://download.qt.io/official_releases/qt-installer-framework/"

/-- Whether a link target is an absolute URL for the protocols these
documents use. -/
def hasScheme (s : String) : Bool :=
  decide ("http://".data <+: s.data) || decide ("https://".data <+: s.data)

/-- Models Node's `url.resolve(base, link)` for the shapes appearing here:
an absolute link replaces the base; a relative file name is appended to the
base, which always ends in a slash. -/
def urlResolve (base link : String) : String :=
  if hasScheme link then link else base ++ link

/-- The candidate condition of the `versionTable.each` loop: the link target
is truthy (present and non-empty, handled by the caller's `Option` match and
the emptiness test here), ends with the installer extension, and — when the
extension is `run` and the release has per-arch linux installers, or the
extension is `exe` and the release has per-arch windows installers — contains
the architecture token. -/
def installerCond (installerExtension arch : String)
    (linuxHasArm64 windowsHasArm64 : Bool) (thisLink : String) : Bool :=
  decide (thisLink ≠ "") && jsEndsWith thisLink installerExtension &&
    (decide (installerExtension ≠ "run") || !linuxHasArm64 ||
      jsIncludes thisLink arch) &&
    (decide (installerExtension ≠ "exe") || !windowsHasArm64 ||
      jsIncludes thisLink arch)

/-- `getInstallerLinkForSpecificVersion`, with the fetched release listing
abstracted to its table-row link targets (`none` when a row's anchor has no
`href` attribute).  The source receives the resolved version as a string and
compares it with `semver.gte`; the model receives the parsed triple.
`installerLink` starts as the empty string and is overwritten by every
matching link; the final guard is the source's `installerLink == null` test,
which on a string value never fires. -/
def getInstallerLinkForSpecificVersion (requestedVersion : SemVer)
    (installerExtension arch : String) (links : List (Option String)) :
    Except QtError String :=
  let qtPageUrl := urlResolve ROOT_QTIFW_URL requestedVersion.version ++ "/"
  let linuxHasArm64 := requestedVersion.gteb ⟨4, 7, 0⟩
  let windowsHasArm64 := requestedVersion.gteb ⟨4, 8, 1⟩
  let installerLink := links.foldl (fun acc ol =>
    match ol with
    | none => acc
    | some thisLink =>
      if installerCond installerExtension arch linuxHasArm64 windowsHasArm64 thisLink then
        urlResolve qtPageUrl thisLink
      else acc) ""
  if jsStrEqNull installerLink then
    Except.error (QtError.artifactNotFound requestedVersion.version installerExtension)
  else Except.ok installerLink

/-! ## Mirror Resolver (`getMirrorLinkForSpecificLink`) -/

/-- A `url` element of the metalink document: its text content and its
optional `priority` attribute (`none` when the attribute is absent). -/
structure RawUrlElem where
  text : String
  priorityAttr : Option String
deriving DecidableEq, Repr

/-- The source's `IMirror`: a parsed mirror entry.  The priority is the
JavaScript numeric coercion of the attribute string (`none` = `NaN`). -/
structure IMirror where
  priority : Option Int
  url : String
deriving DecidableEq, Repr

/-- `filterOutUrl`: `false` when the already-tried list is absent
(`undefined`); otherwise `true` exactly when the URL case-insensitively
contains one of the listed strings (the source's `forEach` flag is the same
as `any`). -/
def filterOutUrl (url : String) (alreadyTriedUrls : Option (List String)) : Bool :=
  match alreadyTriedUrls with
  | none => false
  | some l => l.any (fun blacklisted =>
      jsIncludes (jsToLower url) (jsToLower blacklisted))

/-- The fixed blacklist of unreliable mirror hosts. -/
def blacklisteds : List String :=
  ["mirrors.ocf.berkeley.edu",
   "mirrors.ustc.edu.cn",
   "mirrors.tuna.tsinghua.edu.cn",
   "mirrors.geekpie.club"]

/-- `isUrlBlackListed`: blacklist membership via `filterOutUrl`. -/
def isUrlBlackListed (url : String) : Bool := filterOutUrl url (some blacklisteds)

/-- The body of the `mirorrurls.each` loop for one `url` element: the entry
is kept when both its text and its priority attribute are truthy (present and
non-empty) and it is neither blacklisted nor already tried; the kept entry
carries the numerically-coerced priority. -/
def keepEntry (alreadyTriedUrls : Option (List String)) (e : RawUrlElem) :
    Option IMirror :=
  match e.priorityAttr with
  | none => none
  | some p =>
    if e.text = "" ∨ p = "" then none
    else if isUrlBlackListed e.text then none
    else if filterOutUrl e.text alreadyTriedUrls then none
    else some { priority := jsToNumber p, url := e.text }

/-- The mirror list accumulated by the `each` loop, in document order. -/
def extractMirrors (urlElems : List RawUrlElem)
    (alreadyTriedUrls : Option (List String)) : List IMirror :=
  urlElems.filterMap (keepEntry alreadyTriedUrls)

/-- The comparator-derived weak order of `mirrors.sort((a, b) => a.priority -
b.priority)`: `a` may stay before `b`.  A `NaN` priority makes the comparator
return `NaN`, which the ECMAScript `SortCompare` operation turns into `+0`
(equal), hence `true` in those cases. -/
def prioLeb (a b : Option Int) : Bool :=
  match a, b with
  | some x, some y => decide (x ≤ y)
  | _, _ => true

/-- Strict counterpart of `prioLeb` for stating tie-breaks. -/
def prioLtb (a b : Option Int) : Bool :=
  match a, b with
  | some x, some y => decide (x < y)
  | _, _ => false

/-- Stable insertion of a mirror into an already-sorted list: it goes after
every element that may stay before it. -/
def insertMirror (m : IMirror) : List IMirror → List IMirror
  | [] => [m]
  | x :: xs =>
    if prioLeb x.priority m.priority then x :: insertMirror m xs
    else m :: x :: xs

/-- Models `mirrors.sort((a, b) => a.priority - b.priority)`: ECMAScript
`Array.prototype.sort` is stable, and with a consistent comparator (all
priorities numeric) any stable sort — this insertion sort included — gives
the mandated result.  With `NaN` priorities the comparator is inconsistent
and ECMAScript leaves the order implementation-defined; the theorems about
ordering therefore assume numeric priorities. -/
def sortMirrors (l : List IMirror) : List IMirror :=
  l.foldl (fun acc m => insertMirror m acc) []

/-- `getMirrorLinkForSpecificLink`, with the fetched metalink document
abstracted to its `url` elements.  The source tests `mirrors.length == 0`
and then returns `sorted[0].url`; since sorting preserves emptiness, the two
are folded into one match on the sorted list. -/
def getMirrorLinkForSpecificLink (originalUrl : String)
    (urlElems : List RawUrlElem) (alreadyTriedUrls : Option (List String)) :
    Except QtError String :=
  let metaUrl := originalUrl ++ ".meta4"
  let mirrors := extractMirrors urlElems alreadyTriedUrls
  match sortMirrors mirrors with
  | [] => Except.error (QtError.noMirrorsAvailable metaUrl)
  | m :: _ => Except.ok m.url

/-! ## Specification-side definitions

These follow the wording of the specification and its claims; the theorems
below compare them with the source-derived functions above. -/

/-- The spec's notion of resolution: `m` is among the discovered versions,
satisfies the constraint, and every satisfying discovered version is at most
`m` in the semver order. -/
def IsMaxSatisfying (versions : List SemVer) (sat : SemVer → Bool) (m : SemVer) : Prop :=
  m ∈ versions ∧ sat m = true ∧
    ∀ v ∈ versions, sat v = true → v = m ∨ v.ltb m = true

instance (versions : List SemVer) (sat : SemVer → Bool) (m : SemVer) :
    Decidable (IsMaxSatisfying versions sat m) := by
  unfold IsMaxSatisfying; infer_instance

/-- The semver range `^4.5.0` on coerced versions: at least `4.5.0` and
below `5.0.0`, i.e. major 4 and minor at least 5. -/
def caretSat450 (v : SemVer) : Bool :=
  decide (v.major = 4) && decide (5 ≤ v.minor)

/-- The spec's selection predicate for a candidate href: it ends with the
requested extension, and when the extension is `run` with the release at or
above 4.7.0 — or `exe` with the release at or above 4.8.1 — it also contains
the architecture token; `dmg` is never arch-gated. -/
def specQualifies (v : SemVer) (ext arch href : String) : Prop :=
  jsEndsWith href ext = true ∧
  (¬(ext = "run" ∧ v.gteb ⟨4, 7, 0⟩ = true) ∨ jsIncludes href arch = true) ∧
  (¬(ext = "exe" ∧ v.gteb ⟨4, 8, 1⟩ = true) ∨ jsIncludes href arch = true)

instance (v : SemVer) (ext arch href : String) :
    Decidable (specQualifies v ext arch href) := by
  unfold specQualifies; infer_instance

/-- The hrefs of the release listing that qualify under the spec's predicate,
in document order. -/
def qualifyingHrefs (v : SemVer) (ext arch : String)
    (links : List (Option String)) : List String :=
  (links.filterMap id).filter (fun href => decide (specQualifies v ext arch href))

/-- Head evolution of the stable insertion sort: inserting `m` replaces the
current head exactly when `m` comes strictly before it. -/
def headStep (h : Option IMirror) (m : IMirror) : Option IMirror :=
  match h with
  | none => some m
  | some x => if prioLeb x.priority m.priority then some x else some m

/-! ## Ordering facts about coerced semantic versions -/

theorem SemVer.ltb_iff (a b : SemVer) : a.ltb b = true ↔
    (a.major < b.major ∨ (a.major = b.major ∧
      (a.minor < b.minor ∨ (a.minor = b.minor ∧ a.patch < b.patch)))) := by
  simp [SemVer.ltb]

theorem SemVer.ltb_irrefl (a : SemVer) : a.ltb a = false := by
  simp [SemVer.ltb]

theorem SemVer.ltb_trans {a b c : SemVer} (h1 : a.ltb b = true)
    (h2 : b.ltb c = true) : a.ltb c = true := by
  rw [SemVer.ltb_iff] at h1 h2 ⊢
  omega

theorem SemVer.ltb_total (a b : SemVer) :
    a = b ∨ a.ltb b = true ∨ b.ltb a = true := by
  obtain ⟨a1, a2, a3⟩ := a
  obtain ⟨b1, b2, b3⟩ := b
  simp only [SemVer.mk.injEq, SemVer.ltb_iff]
  omega

/-! ## Behaviour of the `maxSatisfying` scan -/

theorem foldl_maxSatStep_mem (sat : SemVer → Bool) :
    ∀ (l : List SemVer) (acc : Option SemVer) (m : SemVer),
      l.foldl (maxSatStep sat) acc = some m →
      acc = some m ∨ (m ∈ l ∧ sat m = true) := by
  intro l
  induction l with
  | nil => intro acc m h; exact Or.inl h
  | cons a t ih =>
    intro acc m h
    rcases ih (maxSatStep sat acc a) m h with h1 | ⟨hm, hs⟩
    · by_cases hsa : sat a = true
      · cases acc with
        | none =>
          simp [maxSatStep, hsa] at h1
          exact Or.inr ⟨by simp [h1], by rw [← h1]; exact hsa⟩
        | some x =>
          by_cases hl : x.ltb a = true
          · simp [maxSatStep, hsa, hl] at h1
            exact Or.inr ⟨by simp [h1], by rw [← h1]; exact hsa⟩
          · simp [maxSatStep, hsa, hl] at h1
            exact Or.inl (by simp [h1])
      · simp [maxSatStep, hsa] at h1
        exact Or.inl h1
    · exact Or.inr ⟨List.mem_cons_of_mem a hm, hs⟩

theorem foldl_maxSatStep_ub (sat : SemVer → Bool) :
    ∀ (l : List SemVer) (acc : Option SemVer) (m : SemVer),
      l.foldl (maxSatStep sat) acc = some m →
      (∀ x, acc = some x → x = m ∨ x.ltb m = true) ∧
      (∀ v ∈ l, sat v = true → v = m ∨ v.ltb m = true) := by
  intro l
  induction l with
  | nil =>
    intro acc m h
    refine ⟨fun x hx => ?_, fun v hv => absurd hv (List.not_mem_nil v)⟩
    rw [hx] at h
    exact Or.inl (Option.some.inj h)
  | cons a t ih =>
    intro acc m h
    have H := ih (maxSatStep sat acc a) m h
    have hstep : ∀ y, maxSatStep sat acc a = some y → y = m ∨ y.ltb m = true := H.1
    constructor
    · intro x hx
      subst hx
      by_cases hsa : sat a = true
      · by_cases hl : x.ltb a = true
        · have ha := hstep a (by simp [maxSatStep, hsa, hl])
          rcases ha with rfl | ha
          · exact Or.inr hl
          · exact Or.inr (SemVer.ltb_trans hl ha)
        · exact hstep x (by simp [maxSatStep, hsa, hl])
      · exact hstep x (by simp [maxSatStep, hsa])
    · intro v hv hsv
      rcases List.mem_cons.mp hv with rfl | hv'
      · cases acc with
        | none => exact hstep v (by simp [maxSatStep, hsv])
        | some x =>
          by_cases hl : x.ltb v = true
          · exact hstep v (by simp [maxSatStep, hsv, hl])
          · have hx := hstep x (by simp [maxSatStep, hsv, hl])
            rcases SemVer.ltb_total v x with rfl | hvx | hxv
            · exact hx
            · rcases hx with rfl | hx
              · exact Or.inr hvx
              · exact Or.inr (SemVer.ltb_trans hvx hx)
            · exact absurd hxv (by simp [hl])
      · exact H.2 v hv' hsv

theorem foldl_maxSatStep_some_acc (sat : SemVer → Bool) :
    ∀ (l : List SemVer) (x : SemVer),
      l.foldl (maxSatStep sat) (some x) ≠ none := by
  intro l
  induction l with
  | nil => intro x h; exact Option.noConfusion h
  | cons a t ih =>
    intro x
    show t.foldl (maxSatStep sat) (maxSatStep sat (some x) a) ≠ none
    by_cases hsa : sat a = true
    · by_cases hl : x.ltb a = true
      · rw [show maxSatStep sat (some x) a = some a by simp [maxSatStep, hsa, hl]]
        exact ih a
      · rw [show maxSatStep sat (some x) a = some x by simp [maxSatStep, hsa, hl]]
        exact ih x
    · rw [show maxSatStep sat (some x) a = some x by simp [maxSatStep, hsa]]
      exact ih x

theorem foldl_maxSatStep_ne_none (sat : SemVer → Bool) :
    ∀ (l : List SemVer) (acc : Option SemVer) (v : SemVer), v ∈ l → sat v = true →
      l.foldl (maxSatStep sat) acc ≠ none := by
  intro l
  induction l with
  | nil => intro acc v hv; exact absurd hv (List.not_mem_nil v)
  | cons a t ih =>
    intro acc v hv hsv
    rcases List.mem_cons.mp hv with rfl | hv'
    · show t.foldl (maxSatStep sat) (maxSatStep sat acc v) ≠ none
      cases acc with
      | none =>
        rw [show maxSatStep sat none v = some v by simp [maxSatStep, hsv]]
        exact foldl_maxSatStep_some_acc sat t v
      | some x =>
        by_cases hl : x.ltb v = true
        · rw [show maxSatStep sat (some x) v = some v by simp [maxSatStep, hsv, hl]]
          exact foldl_maxSatStep_some_acc sat t v
        · rw [show maxSatStep sat (some x) v = some x by simp [maxSatStep, hsv, hl]]
          exact foldl_maxSatStep_some_acc sat t x
    · exact ih (maxSatStep sat acc a) v hv' hsv

theorem foldl_maxSatStep_none (sat : SemVer → Bool) :
    ∀ l : List SemVer, (∀ v ∈ l, sat v = false) →
      l.foldl (maxSatStep sat) none = none := by
  intro l
  induction l with
  | nil => intro _; rfl
  | cons a t ih =>
    intro h
    show t.foldl (maxSatStep sat) (maxSatStep sat none a) = none
    rw [show maxSatStep sat none a = none by
      simp [maxSatStep, h a (List.mem_cons_self a t)]]
    exact ih fun v hv => h v (List.mem_cons_of_mem a hv)

/-! ## Claim C1 -/

/-- C1: for every listing document and constraint (as its satisfaction
predicate), `requestQtIndex` returns the canonical string form of the
maximum successfully-coerced version satisfying the constraint under the
semver order; non-version labels are discarded by the coercion inside
`parseQtIndex`. -/
theorem c1_requestQtIndex_max_satisfying (linkTexts : List String)
    (sat : SemVer → Bool) (m : SemVer)
    (h : IsMaxSatisfying (parseQtIndex linkTexts) sat m) :
    requestQtIndex linkTexts sat = Except.ok m.version := by
  obtain ⟨hmem, hsat, hmax⟩ := h
  have hr : maxSatisfying (parseQtIndex linkTexts) sat = some m := by
    cases hfold : (parseQtIndex linkTexts).foldl (maxSatStep sat) none with
    | none => exact absurd hfold (foldl_maxSatStep_ne_none sat _ none m hmem hsat)
    | some r =>
      rcases foldl_maxSatStep_mem sat _ none r hfold with h1 | ⟨hrm, hrs⟩
      · exact absurd h1 (by simp)
      · have h2 := (foldl_maxSatStep_ub sat _ none r hfold).2 m hmem hsat
        have h3 := hmax r hrm hrs
        have hrmeq : r = m := by
          rcases h3 with rfl | h3
          · rfl
          · rcases h2 with rfl | h2
            · simp [SemVer.ltb_irrefl] at h3
            · have h4 := SemVer.ltb_trans h2 h3
              simp [SemVer.ltb_irrefl] at h4
        rw [maxSatisfying, hfold, hrmeq]
  simp [requestQtIndex, hr]

/-- Witness for C1: the spec's own example — labels 4.5.0, 4.6.1,
notaversion, Parent Directory with constraint `^4.5.0` resolve to 4.6.1. -/
theorem c1_witness :
    IsMaxSatisfying (parseQtIndex ["4.5.0", "4.6.1", "notaversion", "Parent Directory"])
      caretSat450 ⟨4, 6, 1⟩ ∧
    requestQtIndex ["4.5.0", "4.6.1", "notaversion", "Parent Directory"] caretSat450 =
      Except.ok "4.6.1" :=
  ⟨by decide, c1_requestQtIndex_max_satisfying _ _ ⟨4, 6, 1⟩ (by decide)⟩

/-! ## Claim C5 -/

/-- C5: when no coerced version of the listing satisfies the constraint —
in particular when the coerced set is empty — `requestQtIndex` fails with
the no-matching-version error carrying the full discovered version list. -/
theorem c5_no_matching_version_error (linkTexts : List String)
    (sat : SemVer → Bool)
    (h : ∀ v ∈ parseQtIndex linkTexts, sat v = false) :
    requestQtIndex linkTexts sat =
      Except.error (QtError.noMatchingVersion (parseQtIndex linkTexts)) := by
  have hn : maxSatisfying (parseQtIndex linkTexts) sat = none :=
    foldl_maxSatStep_none sat _ h
  simp [requestQtIndex, hn]

/-- Witness for C5: a listing with an ignorable label and one version that
does not satisfy `^4.5.0` fails, carrying the discovered version. -/
theorem c5_witness :
    (∀ v ∈ parseQtIndex ["Parent Directory", "3.2.1"], caretSat450 v = false) ∧
    requestQtIndex ["Parent Directory", "3.2.1"] caretSat450 =
      Except.error (QtError.noMatchingVersion [⟨3, 2, 1⟩]) :=
  ⟨by decide, c5_no_matching_version_error _ _ (by decide)⟩

/-! ## Claim C6 -/

/-- C6: the extension mapping sends windows to exe, darwin to dmg and linux
to run, and fails with the unsupported-platform error carrying the offending
value on every other string. -/
theorem c6_installer_extension_mapping :
    getInstallerExtension PLATFORM_WINDOWS = Except.ok "exe" ∧
    getInstallerExtension PLATFORM_DARWIN = Except.ok "dmg" ∧
    getInstallerExtension PLATFORM_LINUX = Except.ok "run" ∧
    ∀ platform : String, platform ≠ PLATFORM_WINDOWS →
      platform ≠ PLATFORM_DARWIN → platform ≠ PLATFORM_LINUX →
      getInstallerExtension platform =
        Except.error (QtError.unsupportedPlatform platform) := by
  refine ⟨rfl, rfl, rfl, fun platform h1 h2 h3 => ?_⟩
  simp [getInstallerExtension, h1, h2, h3]

/-- Witness for C6: an unsupported platform token fails, carrying the value. -/
theorem c6_witness :
    ("freebsd" ≠ PLATFORM_WINDOWS ∧ "freebsd" ≠ PLATFORM_DARWIN ∧
      "freebsd" ≠ PLATFORM_LINUX) ∧
    getInstallerExtension "freebsd" =
      Except.error (QtError.unsupportedPlatform "freebsd") :=
  ⟨⟨by decide, by decide, by decide⟩,
    c6_installer_extension_mapping.2.2.2 "freebsd" (by decide) (by decide) (by decide)⟩

/-! ## Mirror filtering lemmas -/

theorem keepEntry_eq_some_iff (tried : Option (List String)) (e : RawUrlElem)
    (m : IMirror) :
    keepEntry tried e = some m ↔
      ∃ p, e.priorityAttr = some p ∧ ¬(e.text = "" ∨ p = "") ∧
        isUrlBlackListed e.text = false ∧ filterOutUrl e.text tried = false ∧
        m = ⟨jsToNumber p, e.text⟩ := by
  cases hp : e.priorityAttr with
  | none => simp [keepEntry, hp]
  | some p =>
    simp only [keepEntry, hp, Option.some.injEq]
    constructor
    · intro h
      by_cases h1 : e.text = "" ∨ p = ""
      · rw [if_pos h1] at h
        exact absurd h (by simp)
      · rw [if_neg h1] at h
        by_cases h2 : isUrlBlackListed e.text = true
        · rw [if_pos h2] at h
          exact absurd h (by simp)
        · rw [if_neg h2] at h
          by_cases h3 : filterOutUrl e.text tried = true
          · rw [if_pos h3] at h
            exact absurd h (by simp)
          · rw [if_neg h3] at h
            exact ⟨p, rfl, h1, by simpa using h2, by simpa using h3,
              (Option.some.inj h).symm⟩
    · rintro ⟨p', hpp, h1, h2, h3, hm⟩
      obtain rfl : p = p' := hpp
      rw [if_neg h1, if_neg (by simp [h2]), if_neg (by simp [h3]), hm]

theorem filterOutUrl_append_false {url : String} {tried : List String}
    {u : String} (h : filterOutUrl url (some (tried ++ [u])) = false) :
    filterOutUrl url (some tried) = false := by
  simp only [filterOutUrl, List.any_append, Bool.or_eq_false_iff] at h
  exact h.1

theorem keepEntry_mono (tried : List String) (u : String) (e : RawUrlElem)
    (m : IMirror) (h : keepEntry (some (tried ++ [u])) e = some m) :
    keepEntry (some tried) e = some m := by
  rcases (keepEntry_eq_some_iff _ e m).mp h with ⟨p, hp, h1, h2, h3, h4⟩
  exact (keepEntry_eq_some_iff _ e m).mpr
    ⟨p, hp, h1, h2, filterOutUrl_append_false h3, h4⟩

theorem filterMap_sublist_of_imp {α β : Type} (f g : α → Option β)
    (h : ∀ a b, f a = some b → g a = some b) :
    ∀ l : List α, (l.filterMap f).Sublist (l.filterMap g) := by
  intro l
  induction l with
  | nil => simp
  | cons a t ih =>
    cases hfa : f a with
    | none =>
      rw [List.filterMap_cons_none hfa]
      cases hga : g a with
      | none => rw [List.filterMap_cons_none hga]; exact ih
      | some b =>
        rw [List.filterMap_cons_some hga]
        exact ih.trans (List.sublist_cons_self b (t.filterMap g))
    | some b =>
      rw [List.filterMap_cons_some hfa, List.filterMap_cons_some (h a b hfa)]
      exact ih.cons₂ b

theorem keepEntry_blacklist_tried (e : RawUrlElem) :
    keepEntry (some blacklisteds) e = keepEntry (some []) e := by
  cases hp : e.priorityAttr with
  | none => simp [keepEntry, hp]
  | some p =>
    simp only [keepEntry, hp]
    by_cases h1 : e.text = "" ∨ p = ""
    · rw [if_pos h1, if_pos h1]
    · rw [if_neg h1, if_neg h1]
      by_cases h2 : isUrlBlackListed e.text = true
      · rw [if_pos h2, if_pos h2]
      · have h2' : isUrlBlackListed e.text = false := by
          cases hx : isUrlBlackListed e.text
          · rfl
          · exact absurd hx h2
        have hb : filterOutUrl e.text (some blacklisteds) = false := h2'
        have hb2 : filterOutUrl e.text (some []) = false := rfl
        rw [if_neg h2, if_neg h2, hb, hb2]

/-! ## Claim C9 -/

/-- C9: appending a URL to the already-tried list never enlarges the mirror
candidate set (the new set is a sublist of the old, so each kept candidate
was kept before), and passing the blacklist itself as the already-tried list
gives exactly the candidate set of blacklist filtering alone. -/
theorem c9_filtering_monotonic_and_idempotent :
    (∀ (urlElems : List RawUrlElem) (tried : List String) (u : String),
      (extractMirrors urlElems (some (tried ++ [u]))).Sublist
        (extractMirrors urlElems (some tried))) ∧
    (∀ urlElems : List RawUrlElem,
      extractMirrors urlElems (some blacklisteds) =
        extractMirrors urlElems (some [])) := by
  constructor
  · intro urlElems tried u
    exact filterMap_sublist_of_imp _ _ (fun e m => keepEntry_mono tried u e m) urlElems
  · intro urlElems
    unfold extractMirrors
    congr 1
    funext e
    exact keepEntry_blacklist_tried e

/-! ## Claim C10 -/

theorem keepEntry_none_eq_empty : keepEntry none = keepEntry (some []) := by
  funext e
  cases hp : e.priorityAttr with
  | none => simp [keepEntry, hp]
  | some p => simp [keepEntry, hp, filterOutUrl]

/-- C10: omitting the already-tried list (`undefined`) behaves exactly like
passing an empty list: the already-tried filter discards nothing, the
candidate set agrees, and the result of the call agrees. -/
theorem c10_omitted_tried_like_empty :
    (∀ url : String, filterOutUrl url none = false) ∧
    (∀ urlElems : List RawUrlElem,
      extractMirrors urlElems none = extractMirrors urlElems (some [])) ∧
    (∀ (originalUrl : String) (urlElems : List RawUrlElem),
      getMirrorLinkForSpecificLink originalUrl urlElems none =
        getMirrorLinkForSpecificLink originalUrl urlElems (some [])) := by
  refine ⟨fun url => rfl, fun urlElems => ?_, fun originalUrl urlElems => ?_⟩
  · unfold extractMirrors
    rw [keepEntry_none_eq_empty]
  · simp only [getMirrorLinkForSpecificLink, extractMirrors, keepEntry_none_eq_empty]

/-! ## Claim C8 -/

/-- C8: when blacklist and already-tried filtering leave zero candidate
mirror entries, the call fails with the no-mirrors error carrying the
metadata URL (the artifact URL with the `.meta4` suffix). -/
theorem c8_no_mirrors_available_error (originalUrl : String)
    (urlElems : List RawUrlElem) (alreadyTriedUrls : Option (List String))
    (h : extractMirrors urlElems alreadyTriedUrls = []) :
    getMirrorLinkForSpecificLink originalUrl urlElems alreadyTriedUrls =
      Except.error (QtError.noMirrorsAvailable (originalUrl ++ ".meta4")) := by
  simp [getMirrorLinkForSpecificLink, h, sortMirrors]

/-- Witness for C8: a document whose only mirror is blacklisted leaves no
candidate, and the call fails carrying the metadata URL. -/
theorem c8_witness :
    extractMirrors [⟨"http://mirrors.ocf.berkeley.edu/f", some "1"⟩] none = [] ∧
    getMirrorLinkForSpecificLink "http://orig/f"
      [⟨"http://mirrors.ocf.berkeley.edu/f", some "1"⟩] none =
      Except.error (QtError.noMirrorsAvailable "http://orig/f.meta4") :=
  ⟨rfl, c8_no_mirrors_available_error _ _ _ rfl⟩

/-! ## Claim C7

The claim is false on the code: an entry whose `priority` attribute is a
non-empty but non-numeric string passes the truthiness test
`if (thisLink && thisPriority)` and is pushed with priority `NaN` — it is
not skipped.  Entries with a missing/empty url text or a missing/empty
priority attribute are indeed skipped without failing the call. -/

/-- Counterexample to C7 as stated: a document whose single entry has the
non-numeric priority attribute `notanumber` yields that entry as a candidate
(with `NaN` priority) and the call returns its URL, instead of skipping the
entry (which would have left zero candidates and failed). -/
theorem c7_counterexample_nonnumeric_priority_kept :
    extractMirrors [⟨"http://mirror.example/f", some "notanumber"⟩] none =
      [{ priority := none, url := "http://mirror.example/f" }] ∧
    getMirrorLinkForSpecificLink "http://orig/f"
      [⟨"http://mirror.example/f", some "notanumber"⟩] none =
      Except.ok "http://mirror.example/f" := ⟨rfl, rfl⟩

/-- C7 as amended: an entry whose url text is missing/empty or whose
priority attribute is missing or empty is skipped — removing it changes
neither the candidate set nor the call's result, so it never causes the
call to fail.  (A non-empty non-numeric priority is kept, coerced to
`NaN`.) -/
theorem c7_bad_entry_skipped (originalUrl : String)
    (pre post : List RawUrlElem) (tried : Option (List String)) (e : RawUrlElem)
    (hbad : e.text = "" ∨ e.priorityAttr = none ∨ e.priorityAttr = some "") :
    extractMirrors (pre ++ e :: post) tried = extractMirrors (pre ++ post) tried ∧
    getMirrorLinkForSpecificLink originalUrl (pre ++ e :: post) tried =
      getMirrorLinkForSpecificLink originalUrl (pre ++ post) tried := by
  have hk : keepEntry tried e = none := by
    rcases hbad with h | h | h
    · cases hp : e.priorityAttr with
      | none => simp [keepEntry, hp]
      | some p => simp [keepEntry, hp, h]
    · simp [keepEntry, h]
    · simp [keepEntry, h]
  have hext : extractMirrors (pre ++ e :: post) tried =
      extractMirrors (pre ++ post) tried := by
    unfold extractMirrors
    rw [List.filterMap_append, List.filterMap_append,
      List.filterMap_cons_none hk]
  exact ⟨hext, by simp only [getMirrorLinkForSpecificLink, hext]⟩

/-- Witness for C7 (amended): an entry with empty url text is skipped and
the call proceeds on the remaining entries. -/
theorem c7_witness :
    (RawUrlElem.text ⟨"", some "1"⟩ = "" ∨
      RawUrlElem.priorityAttr ⟨"", some "1"⟩ = none ∨
      RawUrlElem.priorityAttr ⟨"", some "1"⟩ = some "") ∧
    (extractMirrors [⟨"", some "1"⟩, ⟨"http://a.example/f", some "2"⟩] none =
        extractMirrors [⟨"http://a.example/f", some "2"⟩] none ∧
      getMirrorLinkForSpecificLink "http://orig/f"
          [⟨"", some "1"⟩, ⟨"http://a.example/f", some "2"⟩] none =
        getMirrorLinkForSpecificLink "http://orig/f"
          [⟨"http://a.example/f", some "2"⟩] none) :=
  ⟨Or.inl rfl,
    c7_bad_entry_skipped "http://orig/f" [] [⟨"http://a.example/f", some "2"⟩]
      none ⟨"", some "1"⟩ (Or.inl rfl)⟩

/-! ## Claim C4

The claim is right and the code is wrong: `installerLink` is initialised to
the empty string, and the guard before returning is `installerLink == null`,
which is never true of a string under JavaScript loose equality — so when no
link qualifies the function returns the empty string instead of throwing the
artifact-not-found error its own message announces. -/

/-- C4 (code bug evaluation): on a release listing with no qualifying link —
empty, or containing only a non-installer link — the function returns the
empty string instead of failing with the artifact-not-found error. -/
theorem c4_no_artifact_returns_empty_string :
    getInstallerLinkForSpecificVersion ⟨4, 6, 0⟩ "run" "x86_64" [] =
      Except.ok "" ∧
    getInstallerLinkForSpecificVersion ⟨4, 6, 0⟩ "run" "x86_64"
      [some "README.txt"] = Except.ok "" := ⟨rfl, rfl⟩

/-! ## Claim C2 -/

theorem jsEndsWith_empty_left {ext : String} (h : ext ≠ "") :
    jsEndsWith "" ext = false := by
  have h0 : ("" : String).data = [] := rfl
  simp only [jsEndsWith, h0, decide_eq_false_iff_not, List.suffix_nil]
  intro hx
  exact h (String.ext_iff.mpr (by rw [hx]))

theorem installerCond_eq_specQualifies (v : SemVer) (ext arch : String)
    (hext : ext ≠ "") (href : String) :
    installerCond ext arch (v.gteb ⟨4, 7, 0⟩) (v.gteb ⟨4, 8, 1⟩) href =
      decide (specQualifies v ext arch href) := by
  by_cases h0 : href = ""
  · subst h0
    have h1 : jsEndsWith "" ext = false := jsEndsWith_empty_left hext
    simp [installerCond, specQualifies, h1]
  · cases hE : jsEndsWith href ext <;> cases hI : jsIncludes href arch <;>
      cases hg1 : SemVer.gteb v ⟨4, 7, 0⟩ <;> cases hg2 : SemVer.gteb v ⟨4, 8, 1⟩ <;>
      by_cases hr : ext = "run" <;> by_cases hx : ext = "exe" <;>
      simp [installerCond, specQualifies, h0, hE, hI, hg1, hg2, hr, hx]

theorem foldl_installer_last (cond : String → Bool) (res : String → String) :
    ∀ (links : List (Option String)) (acc : String),
      links.foldl (fun a ol =>
        match ol with
        | none => a
        | some thisLink => if cond thisLink then res thisLink else a) acc =
      (match ((links.filterMap id).filter cond).getLast? with
        | some s => res s
        | none => acc) := by
  intro links
  induction links with
  | nil => intro acc; rfl
  | cons ol t ih =>
    intro acc
    cases ol with
    | none =>
      rw [List.foldl_cons, ih,
        List.filterMap_cons_none (f := (id : Option String → Option String)) rfl]
    | some s =>
      rw [List.foldl_cons,
        List.filterMap_cons_some (f := (id : Option String → Option String)) rfl,
        List.filter_cons]
      by_cases hc : cond s = true
      · have hred : (match some s with
            | none => acc
            | some thisLink => if cond thisLink = true then res thisLink else acc) =
              res s := by
          show (if cond s = true then res s else acc) = res s
          rw [if_pos hc]
        rw [if_pos hc, hred, ih]
        cases hL : ((t.filterMap id).filter cond) with
        | nil => rfl
        | cons b L =>
          rw [List.getLast?_cons_cons]
          cases hg : (b :: L).getLast? with
          | none => exact absurd hg (by simp)
          | some x => rfl
      · have hred : (match some s with
            | none => acc
            | some thisLink => if cond thisLink = true then res thisLink else acc) =
              acc := by
          show (if cond s = true then res s else acc) = acc
          rw [if_neg hc]
        rw [if_neg hc, hred, ih]

/-- C2: a link of the release listing qualifies exactly when its href ends
with the requested extension and — when the extension is run with version at
least 4.7.0, or exe with version at least 4.8.1 — contains the architecture
token (dmg is never arch-gated); among qualifying links the last one in
document order wins, resolved against the release listing URL, and
non-qualifying links never override it. -/
theorem c2_installer_link_selection (requestedVersion : SemVer)
    (installerExtension arch : String) (links : List (Option String)) (s : String)
    (hext : installerExtension ≠ "")
    (hlast : (qualifyingHrefs requestedVersion installerExtension arch links).getLast? =
      some s) :
    getInstallerLinkForSpecificVersion requestedVersion installerExtension arch links =
      Except.ok (urlResolve
        (urlResolve ROOT_QTIFW_URL requestedVersion.version ++ "/") s) := by
  have hcongr : (links.filterMap id).filter
      (installerCond installerExtension arch (requestedVersion.gteb ⟨4, 7, 0⟩)
        (requestedVersion.gteb ⟨4, 8, 1⟩)) =
      qualifyingHrefs requestedVersion installerExtension arch links :=
    List.filter_congr fun x _ =>
      installerCond_eq_specQualifies requestedVersion installerExtension arch hext x
  simp only [getInstallerLinkForSpecificVersion, foldl_installer_last, hcongr,
    hlast, jsStrEqNull, Bool.false_eq_true, if_false]

/-- Witness for C2: version 4.7.0 (arch-gated for linux), extension run,
arch arm64, two run links with the arm64 one first — the arm64 link is
selected (the later non-qualifying link does not override it) and resolved
against the release listing URL. -/
theorem c2_witness :
    (("run" : String) ≠ "" ∧
      (qualifyingHrefs ⟨4, 7, 0⟩ "run" "arm64"
        [some "QtInstallerFramework-linux-arm64-4.7.0.run",
         some "QtInstallerFramework-linux-x64-4.7.0.run"]).getLast? =
        some "QtInstallerFramework-linux-arm64-4.7.0.run") ∧
    getInstallerLinkForSpecificVersion ⟨4, 7, 0⟩ "run" "arm64"
      [some "QtInstallerFramework-linux-arm64-4.7.0.run",
       some "QtInstallerFramework-linux-x64-4.7.0.run"] =
      Except.ok
        "https://download.qt.io/official_releases/qt-installer-framework/4.7.0/QtInstallerFramework-linux-arm64-4.7.0.run" :=
  ⟨⟨by decide, by rfl⟩,
    c2_installer_link_selection ⟨4, 7, 0⟩ "run" "arm64"
      [some "QtInstallerFramework-linux-arm64-4.7.0.run",
       some "QtInstallerFramework-linux-x64-4.7.0.run"]
      "QtInstallerFramework-linux-arm64-4.7.0.run" (by decide) (by rfl)⟩

/-! ## Claim C3 -/

theorem prioLeb_refl (a : Option Int) : prioLeb a a = true := by
  cases a <;> simp [prioLeb]

theorem prioLtb_to_leb {a b : Option Int} (h : prioLtb a b = true) :
    prioLeb a b = true := by
  cases a <;> cases b <;> simp_all [prioLtb, prioLeb]
  all_goals omega

theorem prioLtb_of_not_leb {a b : Option Int} (ha : a.isSome = true)
    (hb : b.isSome = true) (h : ¬prioLeb a b = true) : prioLtb b a = true := by
  cases a <;> cases b <;> simp_all [prioLtb, prioLeb]

theorem prioLtb_leb_trans {a b c : Option Int} (hc : c.isSome = true)
    (h1 : prioLtb a b = true) (h2 : prioLeb b c = true) : prioLtb a c = true := by
  cases a <;> cases b <;> cases c <;> simp_all [prioLtb, prioLeb]
  all_goals omega

theorem prioLeb_ltb_trans {a b c : Option Int} (ha : a.isSome = true)
    (h1 : prioLeb a b = true) (h2 : prioLtb b c = true) : prioLtb a c = true := by
  cases a <;> cases b <;> cases c <;> simp_all [prioLtb, prioLeb]
  all_goals omega

theorem insertMirror_head (m : IMirror) (l : List IMirror) :
    (insertMirror m l).head? = headStep l.head? m := by
  cases l with
  | nil => rfl
  | cons x xs =>
    by_cases h : prioLeb x.priority m.priority = true
    · simp [insertMirror, headStep, h]
    · simp [insertMirror, headStep, h]

theorem sortMirrors_head (l : List IMirror) :
    (sortMirrors l).head? = l.foldl headStep none := by
  suffices h : ∀ (t : List IMirror) (acc : List IMirror),
      (t.foldl (fun acc m => insertMirror m acc) acc).head? =
        t.foldl headStep acc.head? from h l []
  intro t
  induction t with
  | nil => intro acc; rfl
  | cons m t ih =>
    intro acc
    rw [List.foldl_cons, List.foldl_cons, ih, insertMirror_head]

theorem foldl_headStep_argmin :
    ∀ (t : List IMirror) (h0 : IMirror),
      (∀ x ∈ h0 :: t, x.priority.isSome = true) →
      ∃ pre m post,
        h0 :: t = pre ++ m :: post ∧
        t.foldl headStep (some h0) = some m ∧
        (∀ x ∈ h0 :: t, prioLeb m.priority x.priority = true) ∧
        (∀ x ∈ pre, prioLtb m.priority x.priority = true) := by
  intro t
  induction t with
  | nil =>
    intro h0 hnum
    refine ⟨[], h0, [], rfl, rfl, ?_, by simp⟩
    intro x hx
    rw [List.mem_singleton.mp hx]
    exact prioLeb_refl _
  | cons a t ih =>
    intro h0 hnum
    have hs0 : h0.priority.isSome = true := hnum h0 (List.mem_cons_self _ _)
    have hsa : a.priority.isSome = true :=
      hnum a (List.mem_cons_of_mem _ (List.mem_cons_self _ _))
    by_cases hle : prioLeb h0.priority a.priority = true
    · have hstep : headStep (some h0) a = some h0 := by simp [headStep, hle]
      have hnum' : ∀ x ∈ h0 :: t, x.priority.isSome = true := by
        intro x hx
        rcases List.mem_cons.mp hx with rfl | hx'
        · exact hs0
        · exact hnum x (List.mem_cons_of_mem _ (List.mem_cons_of_mem _ hx'))
      obtain ⟨pre, m, post, hdec, hfold, hmin, hpre⟩ := ih h0 hnum'
      have hfold' : (a :: t).foldl headStep (some h0) = some m := by
        rw [List.foldl_cons, hstep]
        exact hfold
      cases pre with
      | nil =>
        obtain ⟨rfl, rfl⟩ : h0 = m ∧ t = post := by
          rw [List.nil_append] at hdec
          exact ⟨(List.cons.injEq _ _ _ _ ▸ hdec).1, (List.cons.injEq _ _ _ _ ▸ hdec).2⟩
        refine ⟨[], h0, a :: t, rfl, hfold', ?_, by simp⟩
        intro x hx
        rcases List.mem_cons.mp hx with rfl | hx'
        · exact prioLeb_refl _
        · rcases List.mem_cons.mp hx' with rfl | hx''
          · exact hle
          · exact hmin x (List.mem_cons_of_mem _ hx'')
      | cons p0 pre' =>
        obtain ⟨rfl, hteq⟩ : h0 = p0 ∧ t = pre' ++ m :: post := by
          rw [List.cons_append] at hdec
          exact ⟨(List.cons.injEq _ _ _ _ ▸ hdec).1, (List.cons.injEq _ _ _ _ ▸ hdec).2⟩
        have hmh0 : prioLtb m.priority h0.priority = true :=
          hpre h0 (List.mem_cons_self _ _)
        refine ⟨h0 :: a :: pre', m, post, by rw [hteq]; rfl, hfold', ?_, ?_⟩
        · intro x hx
          rcases List.mem_cons.mp hx with rfl | hx'
          · exact hmin x (List.mem_cons_self _ _)
          · rcases List.mem_cons.mp hx' with rfl | hx''
            · exact prioLtb_to_leb (prioLtb_leb_trans hsa hmh0 hle)
            · exact hmin x (List.mem_cons_of_mem _ hx'')
        · intro x hx
          rcases List.mem_cons.mp hx with rfl | hx'
          · exact hmh0
          · rcases List.mem_cons.mp hx' with rfl | hx''
            · exact prioLtb_leb_trans hsa hmh0 hle
            · exact hpre x (List.mem_cons_of_mem _ hx'')
    · have hstep : headStep (some h0) a = some a := by simp [headStep, hle]
      have hah0 : prioLtb a.priority h0.priority = true :=
        prioLtb_of_not_leb hs0 hsa hle
      have hnum' : ∀ x ∈ a :: t, x.priority.isSome = true := fun x hx =>
        hnum x (List.mem_cons_of_mem _ hx)
      obtain ⟨pre, m, post, hdec, hfold, hmin, hpre⟩ := ih a hnum'
      have hfold' : (a :: t).foldl headStep (some h0) = some m := by
        rw [List.foldl_cons, hstep]
        exact hfold
      have hma : prioLeb m.priority a.priority = true :=
        hmin a (List.mem_cons_self _ _)
      have hsm : m.priority.isSome = true := by
        have hm : m ∈ a :: t := by
          rw [hdec]
          exact List.mem_append_right pre (List.mem_cons_self _ _)
        exact hnum' m hm
      have hmh0 : prioLtb m.priority h0.priority = true :=
        prioLeb_ltb_trans hsm hma hah0
      refine ⟨h0 :: pre, m, post, by rw [List.cons_append, ← hdec], hfold', ?_, ?_⟩
      · intro x hx
        rcases List.mem_cons.mp hx with rfl | hx'
        · exact prioLtb_to_leb hmh0
        · exact hmin x (hdec ▸ hx')
      · intro x hx
        rcases List.mem_cons.mp hx with rfl | hx'
        · exact hmh0
        · exact hpre x hx'

/-- C3: on a metadata document whose surviving candidates all carry numeric
priorities and are non-empty, the call returns the URL of the candidate with
the numerically lowest priority, and among candidates sharing that lowest
priority the first one in document order (every candidate strictly earlier
in the list has a strictly greater priority). -/
theorem c3_mirror_lowest_priority_first (originalUrl : String)
    (urlElems : List RawUrlElem) (alreadyTriedUrls : Option (List String))
    (hnum : ∀ x ∈ extractMirrors urlElems alreadyTriedUrls, x.priority.isSome = true)
    (hne : extractMirrors urlElems alreadyTriedUrls ≠ []) :
    ∃ pre m post p,
      extractMirrors urlElems alreadyTriedUrls = pre ++ m :: post ∧
      m.priority = some p ∧
      (∀ x ∈ extractMirrors urlElems alreadyTriedUrls, ∀ q : Int,
        x.priority = some q → p ≤ q) ∧
      (∀ x ∈ pre, ∀ q : Int, x.priority = some q → p < q) ∧
      getMirrorLinkForSpecificLink originalUrl urlElems alreadyTriedUrls =
        Except.ok m.url := by
  cases hms : extractMirrors urlElems alreadyTriedUrls with
  | nil => exact absurd hms hne
  | cons h0 t =>
    rw [hms] at hnum
    obtain ⟨pre, m, post, hdec, hfold, hmin, hpre⟩ := foldl_headStep_argmin t h0 hnum
    have hhead : (sortMirrors (h0 :: t)).head? = some m := by
      rw [sortMirrors_head, List.foldl_cons]
      exact hfold
    obtain ⟨p, hp⟩ := Option.isSome_iff_exists.mp
      (hnum m (hdec ▸ List.mem_append_right pre (List.mem_cons_self _ _)))
    refine ⟨pre, m, post, p, hdec, hp, ?_, ?_, ?_⟩
    · intro x hx q hq
      have := hmin x hx
      rw [hp, hq] at this
      simpa [prioLeb] using this
    · intro x hx q hq
      have := hpre x hx
      rw [hp, hq] at this
      simpa [prioLtb] using this
    · simp only [getMirrorLinkForSpecificLink, hms]
      cases hs : sortMirrors (h0 :: t) with
      | nil =>
        rw [hs] at hhead
        exact absurd hhead (by simp)
      | cons m' rest =>
        rw [hs] at hhead
        simp only [List.head?_cons, Option.some.injEq] at hhead
        rw [hhead]

/-- Witness for C3: the spec's example — priorities 20, 10, 10 with the two
tens in document order B then C — selects B, the first lowest-priority
mirror. -/
theorem c3_witness :
    ((∀ x ∈ extractMirrors
        [⟨"http://a.example/f", some "20"⟩, ⟨"http://b.example/f", some "10"⟩,
         ⟨"http://c.example/f", some "10"⟩] none, x.priority.isSome = true) ∧
      extractMirrors
        [⟨"http://a.example/f", some "20"⟩, ⟨"http://b.example/f", some "10"⟩,
         ⟨"http://c.example/f", some "10"⟩] none ≠ []) ∧
    getMirrorLinkForSpecificLink "http://orig/f"
      [⟨"http://a.example/f", some "20"⟩, ⟨"http://b.example/f", some "10"⟩,
       ⟨"http://c.example/f", some "10"⟩] none = Except.ok "http://b.example/f" ∧
    (∃ pre m post p,
      extractMirrors
        [⟨"http://a.example/f", some "20"⟩, ⟨"http://b.example/f", some "10"⟩,
         ⟨"http://c.example/f", some "10"⟩] none = pre ++ m :: post ∧
      m.priority = some p ∧
      (∀ x ∈ extractMirrors
        [⟨"http://a.example/f", some "20"⟩, ⟨"http://b.example/f", some "10"⟩,
         ⟨"http://c.example/f", some "10"⟩] none, ∀ q : Int,
          x.priority = some q → p ≤ q) ∧
      (∀ x ∈ pre, ∀ q : Int, x.priority = some q → p < q) ∧
      getMirrorLinkForSpecificLink "http://orig/f"
        [⟨"http://a.example/f", some "20"⟩, ⟨"http://b.example/f", some "10"⟩,
         ⟨"http://c.example/f", some "10"⟩] none = Except.ok m.url) :=
  ⟨⟨by decide, by decide⟩, by rfl,
    c3_mirror_lowest_priority_first "http://orig/f"
      [⟨"http://a.example/f", some "20"⟩, ⟨"http://b.example/f", some "10"⟩,
       ⟨"http://c.example/f", some "10"⟩] none (by decide) (by decide)⟩

end QtIFW
